import Mathlib

/-!
Verification of the generic resource pool in `src/gpt_pool_mod.rs`
(`Pool`, `PoolConnection`, `CloseEvent`).

Shallow embedding conventions:
* `Instant` / `Duration` values are natural numbers.  An idle entry stores
  `elapsed`, the value observed for `since.elapsed()` while the entry is being
  examined; time is frozen during a single pool operation, so all reads of
  `since.elapsed()` for one entry agree.
* A resource (the `PoolableResource` trait object) is modelled by its stable
  id together with the boolean its `is_healthy()` call returns.  `close()` is
  effect-only; the model records it as a trace event.
* Hooks are pure functions from the resource and the metadata to the
  `Result` value the Rust callback returns.  The Rust `Option<PoolHooks<T>>`
  with `Option` fields is flattened to one record of `Option` fields; the code
  only ever checks both options in sequence, so the flattening is behaviourally
  identical.
* Suspendable operations are sequentialised; each model function computes the
  value the corresponding Rust function returns together with the list of
  observable actions (trace events) it performs, in program order.
-/

/-- Observable actions performed by the pool, in program order. -/
inductive Event where
  /-- `idle.pop_front()` removed this entry from the idle store. -/
  | popEntry (id : Nat)
  /-- `res.is_healthy().await` was invoked. -/
  | healthCheck (id : Nat)
  /-- `res.close().await` was invoked. -/
  | closeRes (id : Nat)
  /-- the `before_acquire` hook ran with metadata `(age, idle_for)`. -/
  | hookBeforeAcquire (id : Nat) (age : Nat) (idle_for : Nat)
  /-- the `after_create` hook ran with metadata `(age, idle_for)`. -/
  | hookAfterCreate (id : Nat) (age : Nat) (idle_for : Nat)
  /-- the `after_release` hook ran with metadata `(age, idle_for)`. -/
  | hookAfterRelease (id : Nat) (age : Nat) (idle_for : Nat)
  /-- `idle.push_back((res, Instant::now()))` enqueued this resource. -/
  | pushIdle (id : Nat)
  /-- the owned semaphore permit was dropped (capacity returned). -/
  | dropPermit
  /-- the caller-supplied factory was invoked. -/
  | factoryCall
  deriving DecidableEq, Repr

/-- The error category (`ShadowcatError`) as the pool uses it. -/
inductive PoolError where
  | protocol (msg : String)
  | timeout (msg : String)
  | poolExhausted
  /-- an arbitrary application error produced by a factory or a hook. -/
  | appError (code : Nat)
  deriving DecidableEq, Repr

/-- A poolable resource: stable id plus the answer `is_healthy()` returns. -/
structure Resource where
  id : Nat
  healthy : Bool
  deriving DecidableEq, Repr

/-- Metadata passed to hooks (`PoolConnectionMetadata`). -/
structure PoolConnectionMetadata where
  age : Nat
  idle_for : Nat
  deriving DecidableEq, Repr

/-- Optional hooks (`PoolHooks`), one pure function per role. -/
structure PoolHooks where
  after_create : Option (Resource → PoolConnectionMetadata → Except PoolError Unit)
  before_acquire : Option (Resource → PoolConnectionMetadata → Except PoolError Bool)
  after_release : Option (Resource → PoolConnectionMetadata → Except PoolError Bool)

/-- The hooks record with every role absent. -/
def PoolHooks.none : PoolHooks :=
  { after_create := Option.none, before_acquire := Option.none,
    after_release := Option.none }

/-- Pool configuration (`PoolOptions`); durations are naturals. -/
structure PoolOptions where
  max_connections : Nat
  acquire_timeout : Nat
  idle_timeout : Option Nat
  max_lifetime : Option Nat
  health_check_interval : Nat
  deriving DecidableEq, Repr

/-- An idle-store entry `(resource, since)`, with `elapsed` standing for the
value of `since.elapsed()` observed while the entry is examined. -/
structure IdleEntry where
  res : Resource
  elapsed : Nat
  deriving DecidableEq, Repr

/-- `since.elapsed() > max_life` guarded by `max_lifetime` being set. -/
def lifetimeExpired (opts : PoolOptions) (e : IdleEntry) : Bool :=
  match opts.max_lifetime with
  | some ml => decide (ml < e.elapsed)
  | none => false

/-- `since.elapsed() > idle_to` guarded by `idle_timeout` being set. -/
def idleExpired (opts : PoolOptions) (e : IdleEntry) : Bool :=
  match opts.idle_timeout with
  | some ito => decide (ito < e.elapsed)
  | none => false

/-- `Pool::pop_idle_healthy`: repeatedly pop the front of the idle store;
expired (by `max_lifetime`, then `idle_timeout`) or unhealthy entries are
closed and skipped; the first entry passing all checks is returned together
with the remaining queue and the trace of actions performed. -/
def pop_idle_healthy (opts : PoolOptions) :
    List IdleEntry → Option IdleEntry × List IdleEntry × List Event
  | [] => (none, [], [])
  | e :: rest =>
    if lifetimeExpired opts e then
      let (r, q, t) := pop_idle_healthy opts rest
      (r, q, .popEntry e.res.id :: .closeRes e.res.id :: t)
    else if idleExpired opts e then
      let (r, q, t) := pop_idle_healthy opts rest
      (r, q, .popEntry e.res.id :: .closeRes e.res.id :: t)
    else if e.res.healthy then
      (some e, rest, [.popEntry e.res.id, .healthCheck e.res.id])
    else
      let (r, q, t) := pop_idle_healthy opts rest
      (r, q, .popEntry e.res.id :: .healthCheck e.res.id :: .closeRes e.res.id :: t)

/-- The entry passes the three reuse checks of `pop_idle_healthy`. -/
def passesChecks (opts : PoolOptions) (e : IdleEntry) : Bool :=
  !lifetimeExpired opts e && !idleExpired opts e && e.res.healthy

/-- The actions `pop_idle_healthy` performs on one examined-and-rejected or
examined-and-kept entry: a pop, then a close for an expired entry, a health
check for an unexpired one, and a close after a failed health check. -/
def entryTrace (opts : PoolOptions) (e : IdleEntry) : List Event :=
  if lifetimeExpired opts e then
    [.popEntry e.res.id, .closeRes e.res.id]
  else if idleExpired opts e then
    [.popEntry e.res.id, .closeRes e.res.id]
  else if e.res.healthy then
    [.popEntry e.res.id, .healthCheck e.res.id]
  else
    [.popEntry e.res.id, .healthCheck e.res.id, .closeRes e.res.id]

/-- The idle-reuse loop of `Pool::acquire` (lines 205-236): repeatedly call
`pop_idle_healthy`; when an entry comes back and a `before_acquire` hook is
set, run it with metadata `{age = 0, idle_for = since.elapsed()}`; on
`Ok(true)` (or when no hook is set) hand the entry out, on `Ok(false)` or
`Err(_)` close the entry and continue with the remaining queue. -/
def acquireIdleLoop (opts : PoolOptions) (hooks : PoolHooks) (idle : List IdleEntry) :
    Option IdleEntry × List IdleEntry × List Event :=
  match hpop : pop_idle_healthy opts idle with
  | (none, q, t) => (none, q, t)
  | (some e, q, t) =>
    match hooks.before_acquire with
    | none => (some e, q, t)
    | some cb =>
      let meta : PoolConnectionMetadata := { age := 0, idle_for := e.elapsed }
      match cb e.res meta with
      | .ok true =>
        (some e, q, t ++ [.hookBeforeAcquire e.res.id 0 e.elapsed])
      | .ok false =>
        let (r, q2, t2) := acquireIdleLoop opts hooks q
        (r, q2, t ++ [.hookBeforeAcquire e.res.id 0 e.elapsed, .closeRes e.res.id] ++ t2)
      | .error _ =>
        let (r, q2, t2) := acquireIdleLoop opts hooks q
        (r, q2, t ++ [.hookBeforeAcquire e.res.id 0 e.elapsed, .closeRes e.res.id] ++ t2)
termination_by idle.length
decreasing_by
  all_goals
  · have key : ∀ (l : List IdleEntry) e q t,
        pop_idle_healthy opts l = (some e, q, t) → q.length < l.length := by
      intro l
      induction l with
      | nil => intro e q t h; simp [pop_idle_healthy] at h
      | cons x rest ih =>
        intro e q t h
        rcases hrec : pop_idle_healthy opts rest with ⟨r0, q0, t0⟩
        simp only [pop_idle_healthy, hrec] at h
        split at h
        · simp only [Prod.mk.injEq] at h
          obtain ⟨he, hq, ht⟩ := h
          subst hq
          exact Nat.lt_succ_of_lt (ih e q0 t0 (by rw [hrec, he]))
        · split at h
          · simp only [Prod.mk.injEq] at h
            obtain ⟨he, hq, ht⟩ := h
            subst hq
            exact Nat.lt_succ_of_lt (ih e q0 t0 (by rw [hrec, he]))
          · split at h
            · simp only [Prod.mk.injEq] at h
              obtain ⟨he, hq, ht⟩ := h
              subst hq
              simp
            · simp only [Prod.mk.injEq] at h
              obtain ⟨he, hq, ht⟩ := h
              subst hq
              exact Nat.lt_succ_of_lt (ih e q0 t0 (by rw [hrec, he]))
    exact key idle e q t hpop

/-- What a call to `Pool::acquire` returns and does, observable pieces only:
the returned value, the idle store afterwards, whether the caller-supplied
factory ran, and the trace of actions in program order. -/
structure AcquireOutcome where
  result : Except PoolError Resource
  idle : List IdleEntry
  factoryInvoked : Bool
  events : List Event
  deriving Repr

/-- Shared pool state as far as the sequential model observes it:
configuration, hooks, the idle store, the `is_closed` flag, whether the
maintenance `JoinHandle` is still stored, and the ids of every resource on
which the pool has invoked `close()`. -/
structure PoolState where
  opts : PoolOptions
  hooks : PoolHooks
  idle : List IdleEntry
  closed : Bool
  maintRunning : Bool
  closedIds : List Nat

/-- `Pool::acquire` (lines 181-257) in the single-caller model: the fast-fail
check on `is_closed`, then (a permit being available and no shutdown racing
the wait) the idle-reuse loop, then the create path with the `after_create`
hook.  The caller passes the outcome its factory would produce. -/
def Pool.acquire (s : PoolState) (factory : Except PoolError Resource) : AcquireOutcome :=
  if s.closed then
    { result := .error (.protocol "Pool closed"), idle := s.idle,
      factoryInvoked := false, events := [] }
  else
    match acquireIdleLoop s.opts s.hooks s.idle with
    | (some e, q, t) =>
      { result := .ok e.res, idle := q, factoryInvoked := false, events := t }
    | (none, q, t) =>
      match factory with
      | .error err =>
        { result := .error err, idle := q, factoryInvoked := true,
          events := t ++ [.factoryCall] }
      | .ok r =>
        match s.hooks.after_create with
        | none =>
          { result := .ok r, idle := q, factoryInvoked := true,
            events := t ++ [.factoryCall] }
        | some cb =>
          match cb r { age := 0, idle_for := 0 } with
          | .ok _ =>
            { result := .ok r, idle := q, factoryInvoked := true,
              events := t ++ [.factoryCall, .hookAfterCreate r.id 0 0] }
          | .error err =>
            { result := .error err, idle := q, factoryInvoked := true,
              events := t ++ [.factoryCall, .hookAfterCreate r.id 0 0, .closeRes r.id] }

/-- The detached task spawned by `<PoolConnection as Drop>::drop`
(lines 456-497): destroy the resource when the pool is closed or the resource
unhealthy, otherwise consult `after_release`, then requeue or destroy, and
only then drop the permit.  Returns the idle store afterwards and the trace. -/
def PoolConnection.releaseTask (closed : Bool) (hooks : PoolHooks) (res : Resource)
    (idle : List IdleEntry) : List IdleEntry × List Event :=
  if closed then
    (idle, [.closeRes res.id, .dropPermit])
  else if !res.healthy then
    (idle, [.healthCheck res.id, .closeRes res.id, .dropPermit])
  else
    match hooks.after_release with
    | some cb =>
      match cb res { age := 0, idle_for := 0 } with
      | .ok true =>
        (idle ++ [{ res := res, elapsed := 0 }],
         [.healthCheck res.id, .hookAfterRelease res.id 0 0, .pushIdle res.id, .dropPermit])
      | .ok false =>
        (idle, [.healthCheck res.id, .hookAfterRelease res.id 0 0, .closeRes res.id, .dropPermit])
      | .error _ =>
        (idle, [.healthCheck res.id, .hookAfterRelease res.id 0 0, .closeRes res.id, .dropPermit])
    | none =>
      (idle ++ [{ res := res, elapsed := 0 }],
       [.healthCheck res.id, .pushIdle res.id, .dropPermit])

/-- `Pool::close` (lines 260-273): latch `is_closed`, broadcast the shutdown
signal, take and await the maintenance handle, then drain the idle store and
close every drained resource. -/
def Pool.close (s : PoolState) : PoolState :=
  { s with closed := true,
           maintRunning := false,
           closedIds := s.closedIds ++ s.idle.map (fun e => e.res.id),
           idle := [] }

/-- `PoolStats` snapshot. -/
structure PoolStats where
  idle : Nat
  max : Nat
  closed : Bool
  deriving DecidableEq, Repr

/-- `Pool::stats` (lines 276-283). -/
def Pool.stats (s : PoolState) : PoolStats :=
  { idle := s.idle.length, max := s.opts.max_connections, closed := s.closed }

/-- Pool operations whose state effects the sequential model tracks. -/
inductive PoolOp where
  | acq (factory : Except PoolError Resource)
  | rel (res : Resource)
  | cls

/-- Apply one operation to the pool state.  `acquire` never writes the
`is_closed` flag; a release task observes the current flag; `close` is
`Pool.close`. -/
def applyOp (s : PoolState) : PoolOp → PoolState
  | .acq factory => { s with idle := (Pool.acquire s factory).idle }
  | .rel res => { s with idle := (PoolConnection.releaseTask s.closed s.hooks res s.idle).1 }
  | .cls => Pool.close s

/-- Run a sequence of pool operations. -/
def runOps (s : PoolState) (ops : List PoolOp) : PoolState :=
  ops.foldl applyOp s

/-!
Model of the shutdown broadcast (`tokio::sync::Notify` restricted to the two
operations the pool uses, `notify_waiters` and `notified_owned`).  Per the
primitive's documented contract — the one the spec also states: a `Notified`
future instantiated before a `notify_waiters` call is woken by it — the state
is the number of `notify_waiters` calls so far, and a future instantiated
while the pool is open snapshots that number and completes once it has grown.
-/

/-- State of the shutdown `Notify`: how many times `notify_waiters` ran. -/
structure NotifyState where
  waitersGen : Nat
  deriving DecidableEq, Repr

/-- `Notify::notify_waiters`. -/
def Notify.notify_waiters (n : NotifyState) : NotifyState :=
  { waitersGen := n.waitersGen + 1 }

/-- The future returned by `CloseEvent::notified`: either immediately ready
(pool already closed) or armed with the generation snapshot taken at
creation. -/
inductive NotifiedFut where
  | ready
  | armed (snapshot : Nat)
  deriving DecidableEq, Repr

/-- `CloseEvent::notified` (lines 394-400): an immediately-complete future
when `is_closed` is set, otherwise an owned notification created (and hence
armed) before waiting. -/
def CloseEvent.notified (closed : Bool) (n : NotifyState) : NotifiedFut :=
  if closed then .ready else .armed n.waitersGen

/-- Whether awaiting the future completes against the given notify state. -/
def NotifiedFut.completes (f : NotifiedFut) (n : NotifyState) : Bool :=
  match f with
  | .ready => true
  | .armed snapshot => decide (snapshot < n.waitersGen)

/-- The first two steps of `Pool::close` (lines 261-263), the point at which
`close()` *begins*: latch the flag, then broadcast the shutdown signal. -/
def Pool.closeBegin (closed : Bool) (n : NotifyState) : Bool × NotifyState :=
  (true, Notify.notify_waiters n)

/-!
Interleaving model for the race between an in-flight release task and
`Pool::close`.  Thread steps are cut at the `await` suspension points of the
code: the release task (healthy resource, no hooks) performs
(r0) the `is_closed` load followed by the `is_healthy().await` suspension,
then (r1) the idle-lock/push_back/permit-drop; `close` performs
(c0) the `is_closed` store plus `notify_waiters` (neither touches the idle
store) followed by the suspending maintenance join, then (c1) the
idle-lock/drain/close-each-entry step.
-/

/-- Events of the interleaved execution. -/
inductive RaceEvent where
  /-- the release task loaded `is_closed` and saw `false`. -/
  | relSawOpen
  /-- the release task loaded `is_closed` and saw `true`; it closes the

  resource and drops the permit. -/
  | relSawClosed
  /-- `close()` stored `is_closed = true` and broadcast shutdown. -/
  | setClosed
  /-- `close()` drained the idle store, closing the listed resource ids. -/
  | drainIdle (ids : List Nat)
  /-- the release task pushed the resource into the idle store. -/
  | racePush (id : Nat)
  deriving DecidableEq, Repr

/-- Configuration of the two-thread execution: shared pool state plus one
program counter per thread and the trace so far. -/
structure RaceConfig where
  closed : Bool
  idle : List IdleEntry
  closedIds : List Nat
  relPc : Nat
  cloPc : Nat
  trace : List RaceEvent
  deriving DecidableEq, Repr

/-- Thread ids for the schedule. -/
inductive RaceTid where
  | rel
  | clo
  deriving DecidableEq, Repr

/-- One step of the chosen thread, for a release task returning the healthy
resource `r` through the hook-free path. -/
def raceStep (r : Resource) (c : RaceConfig) : RaceTid → RaceConfig
  | .rel =>
    match c.relPc with
    | 0 =>
      if c.closed then
        { c with relPc := 2, closedIds := c.closedIds ++ [r.id],
                 trace := c.trace ++ [.relSawClosed] }
      else
        { c with relPc := 1, trace := c.trace ++ [.relSawOpen] }
    | 1 =>
      { c with relPc := 2, idle := c.idle ++ [{ res := r, elapsed := 0 }],
               trace := c.trace ++ [.racePush r.id] }
    | _ => c
  | .clo =>
    match c.cloPc with
    | 0 =>
      { c with cloPc := 1, closed := true, trace := c.trace ++ [.setClosed] }
    | 1 =>
      { c with cloPc := 2, idle := [],
               closedIds := c.closedIds ++ c.idle.map (fun e => e.res.id),
               trace := c.trace ++ [.drainIdle (c.idle.map (fun e => e.res.id))] }
    | _ => c

/-- Run a schedule of thread choices. -/
def raceRun (r : Resource) (c : RaceConfig) (sched : List RaceTid) : RaceConfig :=
  sched.foldl (raceStep r) c

/-- Initial configuration: pool open, idle store empty, a release task for
resource `r` in flight, `close()` about to be called. -/
def raceInit : RaceConfig :=
  { closed := false, idle := [], closedIds := [], relPc := 0, cloPc := 0, trace := [] }

/-- The `before_acquire` decision for an entry: accept when no hook is set,
otherwise accept exactly on `Ok(true)`. -/
def beforeAcquireAccepts (hooks : PoolHooks) (e : IdleEntry) : Bool :=
  match hooks.before_acquire with
  | none => true
  | some cb =>
    match cb e.res { age := 0, idle_for := e.elapsed } with
    | .ok true => true
    | .ok false => false
    | .error _ => false

/-- Number of `popEntry` actions in a trace. -/
def countPops (t : List Event) : Nat :=
  t.countP (fun ev => match ev with | .popEntry _ => true | _ => false)

/-- Number of `closeRes` actions in a trace. -/
def countCloses (t : List Event) : Nat :=
  t.countP (fun ev => match ev with | .closeRes _ => true | _ => false)

/-- Witness options: no expiry configured. -/
def optsW : PoolOptions :=
  { max_connections := 1, acquire_timeout := 5, idle_timeout := Option.none,
    max_lifetime := Option.none, health_check_interval := 60 }

/-- Witness options with a 10-unit `idle_timeout`. -/
def optsTimeoutW : PoolOptions :=
  { max_connections := 1, acquire_timeout := 5, idle_timeout := some 10,
    max_lifetime := some 100, health_check_interval := 60 }

/-- Witness resource. -/
def resW : Resource := { id := 1, healthy := true }

/-- Witness idle entry holding `resW`, freshly enqueued. -/
def entW : IdleEntry := { res := resW, elapsed := 0 }

/-- Witness pool state: open pool, no hooks, `entW` idle. -/
def stateW : PoolState :=
  { opts := optsW, hooks := PoolHooks.none, idle := [entW], closed := false,
    maintRunning := true, closedIds := [] }

/-- Witness idle entry that has exceeded `optsTimeoutW.idle_timeout`. -/
def staleW : IdleEntry := { res := { id := 2, healthy := true }, elapsed := 20 }

/-- Witness idle entry within every limit. -/
def freshW : IdleEntry := { res := { id := 3, healthy := true }, elapsed := 0 }

/-- Witness hooks in which every role returns an error. -/
def hooksErrW : PoolHooks :=
  { after_create := some (fun _ _ => .error (.appError 5)),
    before_acquire := some (fun _ _ => .error (.appError 6)),
    after_release := some (fun _ _ => .error (.appError 7)) }

/-- Witness hooks in which every role accepts. -/
def hooksOkW : PoolHooks :=
  { after_create := some (fun _ _ => .ok ()),
    before_acquire := some (fun _ _ => .ok true),
    after_release := some (fun _ _ => .ok true) }

/-- Witness idle entry with a nonzero idle duration. -/
def entIdle5W : IdleEntry := { res := { id := 4, healthy := true }, elapsed := 5 }

/-- Witness pool state: open pool, accepting hooks, `entIdle5W` idle. -/
def stateHooksW : PoolState :=
  { opts := optsW, hooks := hooksOkW, idle := [entIdle5W], closed := false,
    maintRunning := true, closedIds := [] }

/-- Witness pool state: open pool, erroring hooks, empty idle store. -/
def stateErrW : PoolState :=
  { opts := optsW, hooks := hooksErrW, idle := [], closed := false,
    maintRunning := true, closedIds := [] }

/-- Witness pool state: open pool, accepting hooks, empty idle store. -/
def stateCreateW : PoolState :=
  { opts := optsW, hooks := hooksOkW, idle := [], closed := false,
    maintRunning := true, closedIds := [] }

theorem acquireIdleLoop_pop_none (opts : PoolOptions) (hooks : PoolHooks)
    (idle q : List IdleEntry) (t : List Event)
    (h : pop_idle_healthy opts idle = (none, q, t)) :
    acquireIdleLoop opts hooks idle = (none, q, t) := by
  unfold acquireIdleLoop
  split
  · rename_i q' t' heq
    rw [h] at heq
    simp only [Prod.mk.injEq, true_and] at heq
    obtain ⟨hq, ht⟩ := heq
    subst hq; subst ht
    rfl
  · rename_i e q' t' heq
    rw [h] at heq
    simp at heq

theorem acquireIdleLoop_pop_some_noHook (opts : PoolOptions) (hooks : PoolHooks)
    (idle q : List IdleEntry) (t : List Event) (e : IdleEntry)
    (h : pop_idle_healthy opts idle = (some e, q, t))
    (hh : hooks.before_acquire = none) :
    acquireIdleLoop opts hooks idle = (some e, q, t) := by
  unfold acquireIdleLoop
  split
  · rename_i q' t' heq
    rw [h] at heq
    simp at heq
  · rename_i e' q' t' heq
    rw [h] at heq
    simp only [Prod.mk.injEq, Option.some.injEq] at heq
    obtain ⟨he, hq, ht⟩ := heq
    rw [hh, he, hq, ht]

theorem acquireIdleLoop_pop_some_hookTrue (opts : PoolOptions) (hooks : PoolHooks)
    (idle q : List IdleEntry) (t : List Event) (e : IdleEntry)
    (cb : Resource → PoolConnectionMetadata → Except PoolError Bool)
    (h : pop_idle_healthy opts idle = (some e, q, t))
    (hh : hooks.before_acquire = some cb)
    (hcb : cb e.res { age := 0, idle_for := e.elapsed } = .ok true) :
    acquireIdleLoop opts hooks idle =
      (some e, q, t ++ [.hookBeforeAcquire e.res.id 0 e.elapsed]) := by
  unfold acquireIdleLoop
  split
  · rename_i q' t' heq
    rw [h] at heq
    simp at heq
  · rename_i e' q' t' heq
    rw [h] at heq
    simp only [Prod.mk.injEq, Option.some.injEq] at heq
    obtain ⟨he, hq, ht⟩ := heq
    subst he; subst hq; subst ht
    rw [hh]
    simp only [hcb]

theorem acquireIdleLoop_pop_some_hookReject (opts : PoolOptions) (hooks : PoolHooks)
    (idle q : List IdleEntry) (t : List Event) (e : IdleEntry)
    (cb : Resource → PoolConnectionMetadata → Except PoolError Bool)
    (h : pop_idle_healthy opts idle = (some e, q, t))
    (hh : hooks.before_acquire = some cb)
    (hcb : cb e.res { age := 0, idle_for := e.elapsed } = .ok false
           ∨ ∃ err, cb e.res { age := 0, idle_for := e.elapsed } = .error err) :
    acquireIdleLoop opts hooks idle =
      ((acquireIdleLoop opts hooks q).1, (acquireIdleLoop opts hooks q).2.1,
       t ++ [.hookBeforeAcquire e.res.id 0 e.elapsed, .closeRes e.res.id]
         ++ (acquireIdleLoop opts hooks q).2.2) := by
  conv_lhs => unfold acquireIdleLoop
  split
  · rename_i q' t' heq
    rw [h] at heq
    simp at heq
  · rename_i e' q' t' heq
    rw [h] at heq
    simp only [Prod.mk.injEq, Option.some.injEq] at heq
    obtain ⟨he, hq, ht⟩ := heq
    subst he; subst hq; subst ht
    rw [hh]
    rcases hcb with hcb | ⟨err, hcb⟩ <;> simp only [hcb]

theorem pop_idle_healthy_spec (opts : PoolOptions) :
    ∀ l : List IdleEntry,
      (∀ e q t, pop_idle_healthy opts l = (some e, q, t) →
        ∃ pre, l = pre ++ e :: q
          ∧ (∀ x ∈ pre, passesChecks opts x = false)
          ∧ passesChecks opts e = true
          ∧ t = (pre.map (entryTrace opts)).flatten
              ++ [.popEntry e.res.id, .healthCheck e.res.id])
      ∧ (∀ q t, pop_idle_healthy opts l = (none, q, t) →
        q = [] ∧ (∀ x ∈ l, passesChecks opts x = false)
          ∧ t = (l.map (entryTrace opts)).flatten) := by
  intro l
  induction l with
  | nil =>
    constructor
    · intro e q t h; simp [pop_idle_healthy] at h
    · intro q t h
      simp only [pop_idle_healthy, Prod.mk.injEq, true_and] at h
      obtain ⟨hq, ht⟩ := h
      exact ⟨hq.symm, by simp, by simp [← ht]⟩
  | cons x rest ih =>
    rcases hrec : pop_idle_healthy opts rest with ⟨r', q', t'⟩
    by_cases hl : lifetimeExpired opts x = true
    · have hx : pop_idle_healthy opts (x :: rest) =
          (r', q', .popEntry x.res.id :: .closeRes x.res.id :: t') := by
        simp [pop_idle_healthy, hl, hrec]
      have hfail : passesChecks opts x = false := by simp [passesChecks, hl]
      have htr : entryTrace opts x = [.popEntry x.res.id, .closeRes x.res.id] := by
        simp [entryTrace, hl]
      constructor
      · intro e q t h
        rw [hx] at h
        simp only [Prod.mk.injEq] at h
        obtain ⟨he, hq, ht⟩ := h
        obtain ⟨pre, hdec, hpre, hpass, htt⟩ := (ih.1 e q t') (by rw [hrec, he, hq])
        refine ⟨x :: pre, by simp [hdec], ?_, hpass, ?_⟩
        · intro y hy
          rcases List.mem_cons.mp hy with rfl | hy
          · exact hfail
          · exact hpre y hy
        · subst ht
          rw [htt]
          simp [htr]
      · intro q t h
        rw [hx] at h
        simp only [Prod.mk.injEq] at h
        obtain ⟨he, hq, ht⟩ := h
        obtain ⟨hq0, hall, htt⟩ := (ih.2 q t') (by rw [hrec, ← he, hq])
        refine ⟨hq0, ?_, ?_⟩
        · intro y hy
          rcases List.mem_cons.mp hy with rfl | hy
          · exact hfail
          · exact hall y hy
        · subst ht
          rw [htt]
          simp [htr]
    · by_cases hi : idleExpired opts x = true
      · have hx : pop_idle_healthy opts (x :: rest) =
            (r', q', .popEntry x.res.id :: .closeRes x.res.id :: t') := by
          simp [pop_idle_healthy, hl, hi, hrec]
        have hfail : passesChecks opts x = false := by simp [passesChecks, hi]
        have htr : entryTrace opts x = [.popEntry x.res.id, .closeRes x.res.id] := by
          simp [entryTrace, hl, hi]
        constructor
        · intro e q t h
          rw [hx] at h
          simp only [Prod.mk.injEq] at h
          obtain ⟨he, hq, ht⟩ := h
          obtain ⟨pre, hdec, hpre, hpass, htt⟩ := (ih.1 e q t') (by rw [hrec, he, hq])
          refine ⟨x :: pre, by simp [hdec], ?_, hpass, ?_⟩
          · intro y hy
            rcases List.mem_cons.mp hy with rfl | hy
            · exact hfail
            · exact hpre y hy
          · subst ht
            rw [htt]
            simp [htr]
        · intro q t h
          rw [hx] at h
          simp only [Prod.mk.injEq] at h
          obtain ⟨he, hq, ht⟩ := h
          obtain ⟨hq0, hall, htt⟩ := (ih.2 q t') (by rw [hrec, ← he, hq])
          refine ⟨hq0, ?_, ?_⟩
          · intro y hy
            rcases List.mem_cons.mp hy with rfl | hy
            · exact hfail
            · exact hall y hy
          · subst ht
            rw [htt]
            simp [htr]
      · by_cases hh : x.res.healthy = true
        · have hx : pop_idle_healthy opts (x :: rest) =
              (some x, rest, [.popEntry x.res.id, .healthCheck x.res.id]) := by
            simp [pop_idle_healthy, hl, hi, hh]
          constructor
          · intro e q t h
            rw [hx] at h
            simp only [Prod.mk.injEq, Option.some.injEq] at h
            obtain ⟨he, hq, ht⟩ := h
            subst he; subst hq; subst ht
            exact ⟨[], by simp, by simp, by simp [passesChecks, hl, hi, hh], by simp⟩
          · intro q t h
            rw [hx] at h
            simp at h
        · have hx : pop_idle_healthy opts (x :: rest) =
              (r', q', .popEntry x.res.id :: .healthCheck x.res.id
                 :: .closeRes x.res.id :: t') := by
            simp [pop_idle_healthy, hl, hi, hh, hrec]
          have hfail : passesChecks opts x = false := by
            simp [passesChecks, hl, hi, hh]
          have htr : entryTrace opts x =
              [.popEntry x.res.id, .healthCheck x.res.id, .closeRes x.res.id] := by
            simp [entryTrace, hl, hi, hh]
          constructor
          · intro e q t h
            rw [hx] at h
            simp only [Prod.mk.injEq] at h
            obtain ⟨he, hq, ht⟩ := h
            obtain ⟨pre, hdec, hpre, hpass, htt⟩ := (ih.1 e q t') (by rw [hrec, he, hq])
            refine ⟨x :: pre, by simp [hdec], ?_, hpass, ?_⟩
            · intro y hy
              rcases List.mem_cons.mp hy with rfl | hy
              · exact hfail
              · exact hpre y hy
            · subst ht
              rw [htt]
              simp [htr]
          · intro q t h
            rw [hx] at h
            simp only [Prod.mk.injEq] at h
            obtain ⟨he, hq, ht⟩ := h
            obtain ⟨hq0, hall, htt⟩ := (ih.2 q t') (by rw [hrec, ← he, hq])
            refine ⟨hq0, ?_, ?_⟩
            · intro y hy
              rcases List.mem_cons.mp hy with rfl | hy
              · exact hfail
              · exact hall y hy
            · subst ht
              rw [htt]
              simp [htr]

/-- C1: in the release pipeline (the task spawned on disposal of a
checked-out handle), the capacity permit is dropped only after the resource
has been requeued into the idle store or destroyed via `close()`: in every
execution of the release task the trace ends with the single `dropPermit`
action, and a requeue or a destroy of the released resource precedes it. -/
theorem release_permit_only_after_fate (closed : Bool) (hooks : PoolHooks)
    (res : Resource) (idle : List IdleEntry) :
    ∃ t', (PoolConnection.releaseTask closed hooks res idle).2 = t' ++ [.dropPermit]
      ∧ (Event.closeRes res.id ∈ t' ∨ Event.pushIdle res.id ∈ t')
      ∧ Event.dropPermit ∉ t' := by
  unfold PoolConnection.releaseTask
  by_cases hc : closed
  · exact ⟨[.closeRes res.id], by simp [hc], Or.inl (by simp), by simp⟩
  · by_cases hh : res.healthy
    · cases har : hooks.after_release with
      | none =>
        exact ⟨[.healthCheck res.id, .pushIdle res.id],
          by simp [hc, hh, har], Or.inr (by simp), by simp⟩
      | some cb =>
        cases hcb : cb res { age := 0, idle_for := 0 } with
        | ok b =>
          cases b
          · exact ⟨[.healthCheck res.id, .hookAfterRelease res.id 0 0, .closeRes res.id],
              by simp [hc, hh, har, hcb], Or.inl (by simp), by simp⟩
          · exact ⟨[.healthCheck res.id, .hookAfterRelease res.id 0 0, .pushIdle res.id],
              by simp [hc, hh, har, hcb], Or.inr (by simp), by simp⟩
        | error e =>
          exact ⟨[.healthCheck res.id, .hookAfterRelease res.id 0 0, .closeRes res.id],
            by simp [hc, hh, har, hcb], Or.inl (by simp), by simp⟩
    · exact ⟨[.healthCheck res.id, .closeRes res.id],
        by simp [hc, hh], Or.inl (by simp), by simp⟩

/-- C9: `close()` is idempotent on the pool state: the flag, the (drained)
idle store, the maintenance handle and the set of resources closed are the
same after two calls as after one. -/
theorem close_close_eq_close (s : PoolState) :
    Pool.close (Pool.close s) = Pool.close s := by
  simp [Pool.close]

/-- C6: `close_event()` hands out a future whose wait resolves when `close()`
begins, or immediately if the pool is already closed; a future created via
`notified()` before `close()` fires (armed, in the sense of the primitive's
snapshot of the broadcast generation) completes once `close()` has latched
the flag and broadcast the shutdown signal. -/
theorem close_event_armed_waiter_fires (closed : Bool) (n : NotifyState) :
    (closed = true → CloseEvent.notified closed n = .ready)
    ∧ NotifiedFut.completes (CloseEvent.notified closed n)
        (Pool.closeBegin closed n).2 = true := by
  constructor
  · intro h
    simp [CloseEvent.notified, h]
  · by_cases h : closed <;>
      simp [CloseEvent.notified, NotifiedFut.completes, Pool.closeBegin,
            Notify.notify_waiters, h]

/-- Witness for C6 at concrete inputs: an already-closed pool yields the
immediately-ready future, and a waiter armed at generation 0 completes after
`close()` begins. -/
theorem close_event_armed_waiter_fires_witness :
    CloseEvent.notified true { waitersGen := 0 } = .ready
    ∧ NotifiedFut.completes (CloseEvent.notified false { waitersGen := 0 })
        (Pool.closeBegin false { waitersGen := 0 }).2 = true :=
  ⟨(close_event_armed_waiter_fires true { waitersGen := 0 }).1 rfl,
   (close_event_armed_waiter_fires false { waitersGen := 0 }).2⟩

/-- C5 (refuted): the claim quantifies over every interleaving of release
tasks with `close()`, but the release task reads `is_closed` only once,
before its `is_healthy().await` suspension point.  Schedule: the release task
for healthy resource 7 passes that check while the pool is open; `close()`
then runs to completion (flag latched, idle store drained while still empty);
the release task resumes and pushes resource 7 into the idle store.  The
final state has `closed = true` with resource 7 sitting in the idle store,
never closed, and the trace shows the insertion strictly after the flag
became true. -/
theorem release_close_race_inserts_after_closed :
    (raceRun { id := 7, healthy := true } raceInit [.rel, .clo, .clo, .rel]).closed = true
    ∧ (raceRun { id := 7, healthy := true } raceInit
        [.rel, .clo, .clo, .rel]).idle.map (fun e => e.res.id) = [7]
    ∧ (raceRun { id := 7, healthy := true } raceInit [.rel, .clo, .clo, .rel]).closedIds = []
    ∧ (raceRun { id := 7, healthy := true } raceInit [.rel, .clo, .clo, .rel]).trace
        = [.relSawOpen, .setClosed, .drainIdle [], .racePush 7] := by
  refine ⟨rfl, rfl, rfl, rfl⟩

theorem runOps_preserves_closed (ops : List PoolOp) :
    ∀ s : PoolState, s.closed = true → (runOps s ops).closed = true := by
  induction ops with
  | nil => intro s h; exact h
  | cons op rest ih =>
    intro s h
    have hstep : (applyOp s op).closed = true := by
      cases op <;> simp [applyOp, Pool.close, h]
    exact ih (applyOp s op) hstep

/-- C4: after `close()` returns, every subsequent `acquire` — across any
further sequence of pool operations — fails with the `PoolClosed` error kind
through the fast-fail check (no factory call, indeed no action at all), and
`stats()` reports `closed = true`. -/
theorem close_then_acquire_always_fails (s : PoolState) (ops : List PoolOp)
    (factory : Except PoolError Resource) :
    (Pool.acquire (runOps (Pool.close s) ops) factory).result
        = .error (.protocol "Pool closed")
    ∧ (Pool.acquire (runOps (Pool.close s) ops) factory).factoryInvoked = false
    ∧ (Pool.acquire (runOps (Pool.close s) ops) factory).events = []
    ∧ (Pool.stats (runOps (Pool.close s) ops)).closed = true := by
  have hc : (runOps (Pool.close s) ops).closed = true :=
    runOps_preserves_closed ops (Pool.close s) (by simp [Pool.close])
  refine ⟨?_, ?_, ?_, ?_⟩ <;> simp [Pool.acquire, Pool.stats, hc]

/-- C2: the idle-reuse loop always finishes before the create path is
considered (the factory can only have been invoked when the loop exhausted
the store), and whenever the pool is open, the idle store is non-empty, and
its head entry is healthy, unexpired by both limits, and accepted by
`before_acquire` (or no hook is set), `acquire` returns exactly that idle
resource and the caller-supplied factory is never invoked. -/
theorem acquire_reuse_precedence :
    (∀ (s : PoolState) (factory : Except PoolError Resource),
        (Pool.acquire s factory).factoryInvoked = true →
        (acquireIdleLoop s.opts s.hooks s.idle).1 = none)
    ∧ (∀ (s : PoolState) (factory : Except PoolError Resource) (e : IdleEntry)
          (rest : List IdleEntry),
        s.closed = false → s.idle = e :: rest → passesChecks s.opts e = true →
        beforeAcquireAccepts s.hooks e = true →
        (Pool.acquire s factory).result = .ok e.res
        ∧ (Pool.acquire s factory).factoryInvoked = false) := by
  constructor
  · intro s factory h
    by_cases hc : s.closed
    · simp [Pool.acquire, hc] at h
    · rcases hl : acquireIdleLoop s.opts s.hooks s.idle with ⟨r, q, t⟩
      cases r with
      | some e => simp [Pool.acquire, hc, hl] at h
      | none => simp [hl]
  · intro s factory e rest hc hidle hpass hacc
    have hpass' := hpass
    simp only [passesChecks, Bool.and_eq_true, Bool.not_eq_true'] at hpass'
    obtain ⟨⟨h1, h2⟩, h3⟩ := hpass'
    have hpop : pop_idle_healthy s.opts (e :: rest) =
        (some e, rest, [.popEntry e.res.id, .healthCheck e.res.id]) := by
      simp [pop_idle_healthy, h1, h2, h3]
    have hloop : (acquireIdleLoop s.opts s.hooks (e :: rest)).1 = some e := by
      cases hba : s.hooks.before_acquire with
      | none =>
        rw [acquireIdleLoop_pop_some_noHook s.opts s.hooks (e :: rest) rest _ e hpop hba]
      | some cb =>
        have hcb : cb e.res { age := 0, idle_for := e.elapsed } = .ok true := by
          unfold beforeAcquireAccepts at hacc
          rw [hba] at hacc
          split at hacc
          · rename_i heq
            exact absurd heq (by simp)
          · rename_i cb2 heq
            have hcbeq : cb = cb2 := Option.some.inj heq
            subst hcbeq
            split at hacc
            · assumption
            · exact absurd hacc (by simp)
            · exact absurd hacc (by simp)
        rw [acquireIdleLoop_pop_some_hookTrue s.opts s.hooks (e :: rest) rest _ e cb
              hpop hba hcb]
    rcases hl : acquireIdleLoop s.opts s.hooks s.idle with ⟨r, q, t⟩
    rw [← hidle, hl] at hloop
    simp only at hloop
    subst hloop
    constructor
    · simp [Pool.acquire, hc, hl]
    · simp [Pool.acquire, hc, hl]

/-- Witness for C2 at a concrete input: with one healthy, unexpired,
hook-free idle entry the acquire returns it and a factory that would fail is
never consulted. -/
theorem acquire_reuse_precedence_witness :
    (Pool.acquire stateW (.error (.appError 9))).result = .ok entW.res
    ∧ (Pool.acquire stateW (.error (.appError 9))).factoryInvoked = false :=
  acquire_reuse_precedence.2 stateW (.error (.appError 9)) entW [] rfl rfl
    (by decide) (by decide)

theorem closeRes_mem_entryTrace (opts : PoolOptions) (x : IdleEntry)
    (h : passesChecks opts x = false) :
    Event.closeRes x.res.id ∈ entryTrace opts x := by
  unfold entryTrace
  unfold passesChecks at h
  split_ifs <;> simp_all

/-- C3: every entry popped by `pop_idle_healthy` is checked in the order
max-lifetime expiry, idle-timeout expiry, health (per `entryTrace`, the
health check runs iff both expiry checks pass); each failing entry has
`close()` invoked on it and the loop continues, and only the first entry
passing all three checks is returned, the queue continuing after it. -/
theorem pop_idle_check_order (opts : PoolOptions) (l : List IdleEntry) :
    (∀ e q t, pop_idle_healthy opts l = (some e, q, t) →
       ∃ pre, l = pre ++ e :: q
         ∧ passesChecks opts e = true
         ∧ (∀ x ∈ pre, passesChecks opts x = false ∧ Event.closeRes x.res.id ∈ t)
         ∧ t = (pre.map (entryTrace opts)).flatten
             ++ [.popEntry e.res.id, .healthCheck e.res.id])
    ∧ (∀ q t, pop_idle_healthy opts l = (none, q, t) →
       q = [] ∧ (∀ x ∈ l, passesChecks opts x = false ∧ Event.closeRes x.res.id ∈ t)
         ∧ t = (l.map (entryTrace opts)).flatten)
    ∧ (∀ x : IdleEntry, Event.healthCheck x.res.id ∈ entryTrace opts x
         ↔ (lifetimeExpired opts x = false ∧ idleExpired opts x = false)) := by
  refine ⟨?_, ?_, ?_⟩
  · intro e q t h
    obtain ⟨pre, hdec, hpre, hpass, ht⟩ := (pop_idle_healthy_spec opts l).1 e q t h
    refine ⟨pre, hdec, hpass, ?_, ht⟩
    intro x hx
    refine ⟨hpre x hx, ?_⟩
    rw [ht]
    refine List.mem_append_left _ ?_
    rw [List.mem_flatten]
    exact ⟨entryTrace opts x, List.mem_map_of_mem _ hx,
      closeRes_mem_entryTrace opts x (hpre x hx)⟩
  · intro q t h
    obtain ⟨hq, hall, ht⟩ := (pop_idle_healthy_spec opts l).2 q t h
    refine ⟨hq, ?_, ht⟩
    intro x hx
    refine ⟨hall x hx, ?_⟩
    rw [ht, List.mem_flatten]
    exact ⟨entryTrace opts x, List.mem_map_of_mem _ hx,
      closeRes_mem_entryTrace opts x (hall x hx)⟩
  · intro x
    by_cases hl : lifetimeExpired opts x = true
    · simp [entryTrace, hl]
    · by_cases hi : idleExpired opts x = true
      · simp [entryTrace, hl, hi]
      · by_cases hh : x.res.healthy = true <;> simp [entryTrace, hl, hi, hh]

/-- Witness for C3 at a concrete input: the idle-expired entry `staleW` is
closed and skipped, then the passing entry `freshW` is returned. -/
theorem pop_idle_check_order_witness :
    ∃ pre, [staleW, freshW] = pre ++ freshW :: ([] : List IdleEntry)
      ∧ passesChecks optsTimeoutW freshW = true
      ∧ (∀ x ∈ pre, passesChecks optsTimeoutW x = false
           ∧ Event.closeRes x.res.id ∈
             [Event.popEntry 2, Event.closeRes 2, Event.popEntry 3, Event.healthCheck 3])
      ∧ [Event.popEntry 2, Event.closeRes 2, Event.popEntry 3, Event.healthCheck 3]
          = (pre.map (entryTrace optsTimeoutW)).flatten
            ++ [Event.popEntry freshW.res.id, Event.healthCheck freshW.res.id] :=
  (pop_idle_check_order optsTimeoutW [staleW, freshW]).1 freshW []
    [Event.popEntry 2, Event.closeRes 2, Event.popEntry 3, Event.healthCheck 3]
    (by decide)

theorem countPops_append (a b : List Event) :
    countPops (a ++ b) = countPops a + countPops b := by
  simp [countPops, List.countP_append]

theorem countCloses_append (a b : List Event) :
    countCloses (a ++ b) = countCloses a + countCloses b := by
  simp [countCloses, List.countP_append]

theorem entryTrace_counts (opts : PoolOptions) (x : IdleEntry) :
    countPops (entryTrace opts x) = 1 ∧ countCloses (entryTrace opts x) ≤ 1 := by
  unfold entryTrace
  split_ifs <;> simp [countPops, countCloses, List.countP_cons]

theorem flatten_entryTrace_counts (opts : PoolOptions) (pre : List IdleEntry) :
    countPops ((pre.map (entryTrace opts)).flatten) = pre.length
    ∧ countCloses ((pre.map (entryTrace opts)).flatten) ≤ pre.length := by
  induction pre with
  | nil => simp [countPops, countCloses]
  | cons x xs ih =>
    simp only [List.map_cons, List.flatten_cons, countPops_append, countCloses_append,
               List.length_cons]
    obtain ⟨h1, h2⟩ := entryTrace_counts opts x
    omega

theorem pop_idle_healthy_counts (opts : PoolOptions) (l : List IdleEntry) :
    countPops (pop_idle_healthy opts l).2.2 + (pop_idle_healthy opts l).2.1.length
        = l.length
    ∧ (∀ e, (pop_idle_healthy opts l).1 = some e →
        countCloses (pop_idle_healthy opts l).2.2 + 1
          ≤ countPops (pop_idle_healthy opts l).2.2)
    ∧ ((pop_idle_healthy opts l).1 = none →
        countCloses (pop_idle_healthy opts l).2.2
          ≤ countPops (pop_idle_healthy opts l).2.2)
    ∧ (pop_idle_healthy opts l).2.1 <:+ l := by
  rcases hp : pop_idle_healthy opts l with ⟨r, q, t⟩
  cases r with
  | some e =>
    obtain ⟨pre, hdec, hpre, hpass, ht⟩ := (pop_idle_healthy_spec opts l).1 e q t hp
    obtain ⟨hfp, hfc⟩ := flatten_entryTrace_counts opts pre
    have hpops : countPops t = pre.length + 1 := by
      rw [ht, countPops_append, hfp]
      simp [countPops, List.countP_cons]
    have hcloses : countCloses t ≤ pre.length := by
      rw [ht, countCloses_append]
      have : countCloses [Event.popEntry e.res.id, Event.healthCheck e.res.id] = 0 := by
        simp [countCloses, List.countP_cons]
      omega
    have hlen : l.length = pre.length + 1 + q.length := by
      rw [hdec]
      simp only [List.length_append, List.length_cons]
      omega
    refine ⟨?_, ?_, ?_, ?_⟩
    · simp only
      omega
    · intro e' he'
      simp only
      omega
    · intro hnone
      simp at hnone
    · exact ⟨pre ++ [e], by rw [hdec]; simp⟩
  | none =>
    obtain ⟨hq, hall, ht⟩ := (pop_idle_healthy_spec opts l).2 q t hp
    obtain ⟨hfp, hfc⟩ := flatten_entryTrace_counts opts l
    refine ⟨?_, ?_, ?_, ?_⟩
    · simp only
      rw [ht, hfp, hq]
      simp
    · intro e' he'
      simp at he'
    · intro hnone
      simp only
      rw [ht, hfp]
      exact hfc
    · rw [hq]
      exact List.nil_suffix

theorem acquireIdleLoop_counts (opts : PoolOptions) (hooks : PoolHooks) (l : List IdleEntry) :
    countPops (acquireIdleLoop opts hooks l).2.2
        + (acquireIdleLoop opts hooks l).2.1.length = l.length
    ∧ countCloses (acquireIdleLoop opts hooks l).2.2
        ≤ countPops (acquireIdleLoop opts hooks l).2.2
    ∧ (acquireIdleLoop opts hooks l).2.1 <:+ l := by
  have key : ∀ (n : Nat) (l : List IdleEntry), l.length ≤ n →
      countPops (acquireIdleLoop opts hooks l).2.2
          + (acquireIdleLoop opts hooks l).2.1.length = l.length
      ∧ countCloses (acquireIdleLoop opts hooks l).2.2
          ≤ countPops (acquireIdleLoop opts hooks l).2.2
      ∧ (acquireIdleLoop opts hooks l).2.1 <:+ l := by
    intro n
    induction n with
    | zero =>
      intro l hl
      have hnil : l = [] := List.length_eq_zero.mp (Nat.le_antisymm hl (Nat.zero_le _))
      subst hnil
      have hloop : acquireIdleLoop opts hooks [] = (none, [], []) :=
        acquireIdleLoop_pop_none opts hooks [] [] [] rfl
      rw [hloop]
      exact ⟨by simp [countPops], by simp [countPops, countCloses], List.nil_suffix⟩
    | succ n ih =>
      intro l hl
      rcases hp : pop_idle_healthy opts l with ⟨r, q, t⟩
      obtain ⟨hplen, hpsome, hpnone, hpsuf⟩ := pop_idle_healthy_counts opts l
      rw [hp] at hplen hpsome hpnone hpsuf
      simp only at hplen hpsome hpnone hpsuf
      cases r with
      | none =>
        have hloop := acquireIdleLoop_pop_none opts hooks l q t hp
        rw [hloop]
        exact ⟨hplen, hpnone rfl, hpsuf⟩
      | some e =>
        have hqlen : q.length < l.length := by
          have := hpsome e rfl
          omega
        have hqn : q.length ≤ n := by omega
        cases hb : hooks.before_acquire with
        | none =>
          have hloop := acquireIdleLoop_pop_some_noHook opts hooks l q t e hp hb
          rw [hloop]
          refine ⟨hplen, ?_, hpsuf⟩
          show countCloses t ≤ countPops t
          have := hpsome e rfl
          omega
        | some cb =>
          cases hcb : cb e.res { age := 0, idle_for := e.elapsed } with
          | ok b =>
            cases b with
            | true =>
              have hloop := acquireIdleLoop_pop_some_hookTrue opts hooks l q t e cb hp hb hcb
              rw [hloop]
              have h1 : countPops (t ++ [Event.hookBeforeAcquire e.res.id 0 e.elapsed])
                  = countPops t := by
                rw [countPops_append]; simp [countPops, List.countP_cons]
              have h2 : countCloses (t ++ [Event.hookBeforeAcquire e.res.id 0 e.elapsed])
                  = countCloses t := by
                rw [countCloses_append]; simp [countCloses, List.countP_cons]
              refine ⟨?_, ?_, hpsuf⟩
              · simp only [h1]
                exact hplen
              · simp only [h1, h2]
                have := hpsome e rfl
                omega
            | false =>
              have hloop := acquireIdleLoop_pop_some_hookReject opts hooks l q t e cb hp hb
                (Or.inl hcb)
              obtain ⟨ihlen, ihcl, ihsuf⟩ := ih q hqn
              rw [hloop]
              have hmid : countPops [Event.hookBeforeAcquire e.res.id 0 e.elapsed,
                  Event.closeRes e.res.id] = 0 := by
                simp [countPops, List.countP_cons]
              have hmidc : countCloses [Event.hookBeforeAcquire e.res.id 0 e.elapsed,
                  Event.closeRes e.res.id] = 1 := by
                simp [countCloses, List.countP_cons]
              have hps := hpsome e rfl
              refine ⟨?_, ?_, ?_⟩
              · simp only [countPops_append, hmid]
                omega
              · simp only [countPops_append, countCloses_append, hmid, hmidc]
                omega
              · exact ihsuf.trans hpsuf
          | error err =>
            have hloop := acquireIdleLoop_pop_some_hookReject opts hooks l q t e cb hp hb
              (Or.inr ⟨err, hcb⟩)
            obtain ⟨ihlen, ihcl, ihsuf⟩ := ih q hqn
            rw [hloop]
            have hmid : countPops [Event.hookBeforeAcquire e.res.id 0 e.elapsed,
                Event.closeRes e.res.id] = 0 := by
              simp [countPops, List.countP_cons]
            have hmidc : countCloses [Event.hookBeforeAcquire e.res.id 0 e.elapsed,
                Event.closeRes e.res.id] = 1 := by
              simp [countCloses, List.countP_cons]
            have hps := hpsome e rfl
            refine ⟨?_, ?_, ?_⟩
            · simp only [countPops_append, hmid]
              omega
            · simp only [countPops_append, countCloses_append, hmid, hmidc]
              omega
            · exact ihsuf.trans hpsuf
  exact key l.length l (Nat.le_refl _)

/-- C10: the idle-reuse loop of `acquire` does linearly bounded work on any
finite idle store: each iteration pops exactly one entry (pops plus the
remaining queue length equal the initial length, and the remaining queue is a
suffix of the initial one), and it performs at most one pop and at most one
close per entry present. -/
theorem acquire_idle_loop_linear (opts : PoolOptions) (hooks : PoolHooks)
    (l : List IdleEntry) :
    countPops (acquireIdleLoop opts hooks l).2.2
        + (acquireIdleLoop opts hooks l).2.1.length = l.length
    ∧ countPops (acquireIdleLoop opts hooks l).2.2 ≤ l.length
    ∧ countCloses (acquireIdleLoop opts hooks l).2.2 ≤ l.length
    ∧ (acquireIdleLoop opts hooks l).2.1 <:+ l := by
  obtain ⟨h1, h2, h3⟩ := acquireIdleLoop_counts opts hooks l
  exact ⟨h1, by omega, by omega, h3⟩

/-- C7: hook errors are handled per role.  `after_create` returning an error
closes the freshly created resource and surfaces that error to the acquire
caller; `before_acquire` returning an error behaves exactly like returning
`false` (close the entry, continue with the rest of the store, nothing
surfaced); `after_release` returning an error behaves exactly like returning
`false` (close the resource instead of requeueing, nothing surfaced). -/
theorem hook_errors_per_role :
    (∀ (s : PoolState) (q : List IdleEntry) (t : List Event) (r : Resource)
        (cb : Resource → PoolConnectionMetadata → Except PoolError Unit) (err : PoolError),
      s.closed = false →
      acquireIdleLoop s.opts s.hooks s.idle = (none, q, t) →
      s.hooks.after_create = some cb →
      cb r { age := 0, idle_for := 0 } = .error err →
      (Pool.acquire s (.ok r)).result = .error err
      ∧ Event.closeRes r.id ∈ (Pool.acquire s (.ok r)).events)
    ∧ (∀ (opts : PoolOptions) (hooks : PoolHooks) (e : IdleEntry) (rest : List IdleEntry)
        (cb : Resource → PoolConnectionMetadata → Except PoolError Bool),
      hooks.before_acquire = some cb →
      passesChecks opts e = true →
      (cb e.res { age := 0, idle_for := e.elapsed } = .ok false
        ∨ ∃ err, cb e.res { age := 0, idle_for := e.elapsed } = .error err) →
      acquireIdleLoop opts hooks (e :: rest) =
        ((acquireIdleLoop opts hooks rest).1, (acquireIdleLoop opts hooks rest).2.1,
         [Event.popEntry e.res.id, Event.healthCheck e.res.id,
          Event.hookBeforeAcquire e.res.id 0 e.elapsed, Event.closeRes e.res.id]
           ++ (acquireIdleLoop opts hooks rest).2.2))
    ∧ (∀ (hooks : PoolHooks) (res : Resource)
        (cb : Resource → PoolConnectionMetadata → Except PoolError Bool)
        (idle : List IdleEntry),
      hooks.after_release = some cb →
      res.healthy = true →
      (cb res { age := 0, idle_for := 0 } = .ok false
        ∨ ∃ err, cb res { age := 0, idle_for := 0 } = .error err) →
      PoolConnection.releaseTask false hooks res idle =
        (idle, [.healthCheck res.id, .hookAfterRelease res.id 0 0,
                .closeRes res.id, .dropPermit])) := by
  refine ⟨?_, ?_, ?_⟩
  · intro s q t r cb err hc hl hac hcb
    constructor
    · simp [Pool.acquire, hc, hl, hac, hcb]
    · simp [Pool.acquire, hc, hl, hac, hcb]
  · intro opts hooks e rest cb hh hpass hcb
    have hpass' := hpass
    simp only [passesChecks, Bool.and_eq_true, Bool.not_eq_true'] at hpass'
    obtain ⟨⟨h1, h2⟩, h3⟩ := hpass'
    have hpop : pop_idle_healthy opts (e :: rest) =
        (some e, rest, [.popEntry e.res.id, .healthCheck e.res.id]) := by
      simp [pop_idle_healthy, h1, h2, h3]
    rw [acquireIdleLoop_pop_some_hookReject opts hooks (e :: rest) rest
          [.popEntry e.res.id, .healthCheck e.res.id] e cb hpop hh hcb]
    simp
  · intro hooks res cb idle har hh hcb
    rcases hcb with hcb | ⟨err, hcb⟩ <;>
      simp [PoolConnection.releaseTask, har, hh, hcb]

/-- Witness for C7 at concrete inputs: the erroring `after_create` hook of
`hooksErrW` surfaces its error and closes the fresh resource; an erroring
`before_acquire` rejection continues with the rest of the store; an erroring
`after_release` destroys instead of requeueing. -/
theorem hook_errors_per_role_witness :
    ((Pool.acquire stateErrW (.ok { id := 9, healthy := true })).result
        = .error (.appError 5)
      ∧ Event.closeRes 9 ∈ (Pool.acquire stateErrW (.ok { id := 9, healthy := true })).events)
    ∧ acquireIdleLoop optsW hooksErrW (entW :: []) =
        ((acquireIdleLoop optsW hooksErrW []).1, (acquireIdleLoop optsW hooksErrW []).2.1,
         [Event.popEntry entW.res.id, Event.healthCheck entW.res.id,
          Event.hookBeforeAcquire entW.res.id 0 entW.elapsed, Event.closeRes entW.res.id]
           ++ (acquireIdleLoop optsW hooksErrW []).2.2)
    ∧ PoolConnection.releaseTask false hooksErrW resW [] =
        ([], [.healthCheck resW.id, .hookAfterRelease resW.id 0 0,
              .closeRes resW.id, .dropPermit]) :=
  ⟨hook_errors_per_role.1 stateErrW [] [] { id := 9, healthy := true } _ (.appError 5)
      rfl (acquireIdleLoop_pop_none stateErrW.opts stateErrW.hooks stateErrW.idle [] [] rfl)
      rfl rfl,
   hook_errors_per_role.2.1 optsW hooksErrW entW [] _ rfl (by decide)
      (Or.inr ⟨.appError 6, rfl⟩),
   hook_errors_per_role.2.2 hooksErrW resW _ [] rfl rfl (Or.inr ⟨.appError 7, rfl⟩)⟩

theorem entryTrace_no_hooks (opts : PoolOptions) (x : IdleEntry) (id a i : Nat) :
    Event.hookBeforeAcquire id a i ∉ entryTrace opts x
    ∧ Event.hookAfterCreate id a i ∉ entryTrace opts x
    ∧ Event.hookAfterRelease id a i ∉ entryTrace opts x := by
  unfold entryTrace
  split_ifs <;> simp

theorem pop_trace_no_hooks (opts : PoolOptions) (l : List IdleEntry) (id a i : Nat) :
    Event.hookBeforeAcquire id a i ∉ (pop_idle_healthy opts l).2.2
    ∧ Event.hookAfterCreate id a i ∉ (pop_idle_healthy opts l).2.2
    ∧ Event.hookAfterRelease id a i ∉ (pop_idle_healthy opts l).2.2 := by
  rcases hp : pop_idle_healthy opts l with ⟨r, q, t⟩
  have habs : ∀ (pre : List IdleEntry),
      Event.hookBeforeAcquire id a i ∉ (pre.map (entryTrace opts)).flatten
      ∧ Event.hookAfterCreate id a i ∉ (pre.map (entryTrace opts)).flatten
      ∧ Event.hookAfterRelease id a i ∉ (pre.map (entryTrace opts)).flatten := by
    intro pre
    refine ⟨?_, ?_, ?_⟩ <;>
    · intro hmem
      rw [List.mem_flatten] at hmem
      obtain ⟨s, hs, hmem⟩ := hmem
      obtain ⟨x, hx, rfl⟩ := List.mem_map.mp hs
      have := entryTrace_no_hooks opts x id a i
      tauto
  cases r with
  | some e =>
    obtain ⟨pre, hdec, hpre, hpass, ht⟩ := (pop_idle_healthy_spec opts l).1 e q t hp
    subst ht
    obtain ⟨n1, n2, n3⟩ := habs pre
    refine ⟨?_, ?_, ?_⟩ <;>
    · intro hmem
      simp only [List.mem_append] at hmem
      rcases hmem with hmem | hmem
      · tauto
      · simp at hmem
  | none =>
    obtain ⟨hq, hall, ht⟩ := (pop_idle_healthy_spec opts l).2 q t hp
    subst ht
    exact habs l

theorem acquireIdleLoop_trace_hooks (opts : PoolOptions) (hooks : PoolHooks)
    (l : List IdleEntry) (id a i : Nat) :
    (Event.hookBeforeAcquire id a i ∈ (acquireIdleLoop opts hooks l).2.2 →
      a = 0 ∧ ∃ e ∈ l, e.res.id = id ∧ i = e.elapsed)
    ∧ Event.hookAfterCreate id a i ∉ (acquireIdleLoop opts hooks l).2.2
    ∧ Event.hookAfterRelease id a i ∉ (acquireIdleLoop opts hooks l).2.2 := by
  have key : ∀ (n : Nat) (l : List IdleEntry), l.length ≤ n →
      (Event.hookBeforeAcquire id a i ∈ (acquireIdleLoop opts hooks l).2.2 →
        a = 0 ∧ ∃ e ∈ l, e.res.id = id ∧ i = e.elapsed)
      ∧ Event.hookAfterCreate id a i ∉ (acquireIdleLoop opts hooks l).2.2
      ∧ Event.hookAfterRelease id a i ∉ (acquireIdleLoop opts hooks l).2.2 := by
    intro n
    induction n with
    | zero =>
      intro l hl
      have hnil : l = [] := List.length_eq_zero.mp (Nat.le_antisymm hl (Nat.zero_le _))
      subst hnil
      rw [acquireIdleLoop_pop_none opts hooks [] [] [] rfl]
      simp
    | succ n ih =>
      intro l hl
      rcases hp : pop_idle_healthy opts l with ⟨r, q, t⟩
      obtain ⟨np1, np2, np3⟩ := pop_trace_no_hooks opts l id a i
      rw [hp] at np1 np2 np3
      simp only at np1 np2 np3
      cases r with
      | none =>
        rw [acquireIdleLoop_pop_none opts hooks l q t hp]
        exact ⟨fun hmem => absurd hmem np1, np2, np3⟩
      | some e =>
        obtain ⟨pre, hdec, hpre, hpass, ht⟩ := (pop_idle_healthy_spec opts l).1 e q t hp
        have hein : e ∈ l := by rw [hdec]; simp
        have hqsub : q ⊆ l := by
          rw [hdec]
          intro y hy
          simp [hy]
        have hqlen : q.length < l.length := by
          rw [hdec]; simp only [List.length_append, List.length_cons]; omega
        have hqn : q.length ≤ n := by omega
        cases hb : hooks.before_acquire with
        | none =>
          rw [acquireIdleLoop_pop_some_noHook opts hooks l q t e hp hb]
          exact ⟨fun hmem => absurd hmem np1, np2, np3⟩
        | some cb =>
          cases hcb : cb e.res { age := 0, idle_for := e.elapsed } with
          | ok b =>
            cases b with
            | true =>
              rw [acquireIdleLoop_pop_some_hookTrue opts hooks l q t e cb hp hb hcb]
              refine ⟨?_, ?_, ?_⟩
              · intro hmem
                simp only [List.mem_append] at hmem
                rcases hmem with hmem | hmem
                · exact absurd hmem np1
                · simp only [List.mem_singleton, Event.hookBeforeAcquire.injEq] at hmem
                  obtain ⟨hid, ha, hi⟩ := hmem
                  exact ⟨ha, e, hein, hid.symm, hi⟩
              · intro hmem
                simp only [List.mem_append] at hmem
                rcases hmem with hmem | hmem
                · exact absurd hmem np2
                · simp at hmem
              · intro hmem
                simp only [List.mem_append] at hmem
                rcases hmem with hmem | hmem
                · exact absurd hmem np3
                · simp at hmem
            | false =>
              rw [acquireIdleLoop_pop_some_hookReject opts hooks l q t e cb hp hb (Or.inl hcb)]
              obtain ⟨ih1, ih2, ih3⟩ := ih q hqn
              refine ⟨?_, ?_, ?_⟩
              · intro hmem
                simp only [List.mem_append] at hmem
                rcases hmem with (hmem | hmem) | hmem
                · exact absurd hmem np1
                · simp only [List.mem_cons, List.mem_singleton,
                    Event.hookBeforeAcquire.injEq] at hmem
                  rcases hmem with ⟨hid, ha, hi⟩ | hmem
                  · exact ⟨ha, e, hein, hid.symm, hi⟩
                  · simp at hmem
                · obtain ⟨ha, e', he', hid, hi⟩ := ih1 hmem
                  exact ⟨ha, e', hqsub he', hid, hi⟩
              · intro hmem
                simp only [List.mem_append] at hmem
                rcases hmem with (hmem | hmem) | hmem
                · exact absurd hmem np2
                · simp at hmem
                · exact absurd hmem ih2
              · intro hmem
                simp only [List.mem_append] at hmem
                rcases hmem with (hmem | hmem) | hmem
                · exact absurd hmem np3
                · simp at hmem
                · exact absurd hmem ih3
          | error err =>
            rw [acquireIdleLoop_pop_some_hookReject opts hooks l q t e cb hp hb
                  (Or.inr ⟨err, hcb⟩)]
            obtain ⟨ih1, ih2, ih3⟩ := ih q hqn
            refine ⟨?_, ?_, ?_⟩
            · intro hmem
              simp only [List.mem_append] at hmem
              rcases hmem with (hmem | hmem) | hmem
              · exact absurd hmem np1
              · simp only [List.mem_cons, List.mem_singleton,
                  Event.hookBeforeAcquire.injEq] at hmem
                rcases hmem with ⟨hid, ha, hi⟩ | hmem
                · exact ⟨ha, e, hein, hid.symm, hi⟩
                · simp at hmem
              · obtain ⟨ha, e', he', hid, hi⟩ := ih1 hmem
                exact ⟨ha, e', hqsub he', hid, hi⟩
            · intro hmem
              simp only [List.mem_append] at hmem
              rcases hmem with (hmem | hmem) | hmem
              · exact absurd hmem np2
              · simp at hmem
              · exact absurd hmem ih2
            · intro hmem
              simp only [List.mem_append] at hmem
              rcases hmem with (hmem | hmem) | hmem
              · exact absurd hmem np3
              · simp at hmem
              · exact absurd hmem ih3
  exact key l.length l (Nat.le_refl _)

/-- C8: every hook invocation passes `age = 0`; `before_acquire` receives
`idle_for` equal to `since.elapsed()` of the popped idle entry, while
`after_create` and `after_release` receive `idle_for = 0`. -/
theorem hook_metadata_values :
    (∀ (s : PoolState) (factory : Except PoolError Resource) (id a i : Nat),
        Event.hookBeforeAcquire id a i ∈ (Pool.acquire s factory).events →
        a = 0 ∧ ∃ e ∈ s.idle, e.res.id = id ∧ i = e.elapsed)
    ∧ (∀ (s : PoolState) (factory : Except PoolError Resource) (id a i : Nat),
        Event.hookAfterCreate id a i ∈ (Pool.acquire s factory).events →
        a = 0 ∧ i = 0)
    ∧ (∀ (closed : Bool) (hooks : PoolHooks) (res : Resource) (idle : List IdleEntry)
        (id a i : Nat),
        Event.hookAfterRelease id a i ∈ (PoolConnection.releaseTask closed hooks res idle).2 →
        a = 0 ∧ i = 0) := by
  refine ⟨?_, ?_, ?_⟩
  · intro s factory id a i hmem
    by_cases hc : s.closed
    · simp [Pool.acquire, hc] at hmem
    · rcases hl : acquireIdleLoop s.opts s.hooks s.idle with ⟨r, q, t⟩
      have hloop := acquireIdleLoop_trace_hooks s.opts s.hooks s.idle id a i
      rw [hl] at hloop
      simp only at hloop
      cases r with
      | some e =>
        simp only [Pool.acquire, hc, if_false, Bool.false_eq_true, ite_false, hl] at hmem
        exact hloop.1 hmem
      | none =>
        cases factory with
        | error err =>
          simp [Pool.acquire, hc, hl] at hmem
          exact hloop.1 hmem
        | ok r =>
          cases hac : s.hooks.after_create with
          | none =>
            simp [Pool.acquire, hc, hl, hac] at hmem
            exact hloop.1 hmem
          | some cb =>
            cases hcb : cb r { age := 0, idle_for := 0 } with
            | ok u =>
              simp [Pool.acquire, hc, hl, hac, hcb] at hmem
              exact hloop.1 hmem
            | error err2 =>
              simp [Pool.acquire, hc, hl, hac, hcb] at hmem
              exact hloop.1 hmem
  · intro s factory id a i hmem
    by_cases hc : s.closed
    · simp [Pool.acquire, hc] at hmem
    · rcases hl : acquireIdleLoop s.opts s.hooks s.idle with ⟨r, q, t⟩
      have hloop := acquireIdleLoop_trace_hooks s.opts s.hooks s.idle id a i
      rw [hl] at hloop
      simp only at hloop
      cases r with
      | some e =>
        simp only [Pool.acquire, hc, if_false, Bool.false_eq_true, ite_false, hl] at hmem
        exact absurd hmem hloop.2.1
      | none =>
        cases factory with
        | error err =>
          simp [Pool.acquire, hc, hl] at hmem
          exact absurd hmem hloop.2.1
        | ok r =>
          cases hac : s.hooks.after_create with
          | none =>
            simp [Pool.acquire, hc, hl, hac] at hmem
            exact absurd hmem hloop.2.1
          | some cb =>
            cases hcb : cb r { age := 0, idle_for := 0 } with
            | ok u =>
              simp only [Pool.acquire, hc, if_false, Bool.false_eq_true, ite_false, hl,
                hac, hcb, List.mem_append] at hmem
              rcases hmem with hmem | hmem
              · exact absurd hmem hloop.2.1
              · simp only [List.mem_cons, List.mem_singleton,
                  Event.hookAfterCreate.injEq] at hmem
                rcases hmem with hmem | ⟨hid, ha, hi⟩ | hmem
                · simp at hmem
                · exact ⟨ha, hi⟩
                · simp at hmem
            | error err2 =>
              simp only [Pool.acquire, hc, if_false, Bool.false_eq_true, ite_false, hl,
                hac, hcb, List.mem_append] at hmem
              rcases hmem with hmem | hmem
              · exact absurd hmem hloop.2.1
              · simp only [List.mem_cons, List.mem_singleton,
                  Event.hookAfterCreate.injEq] at hmem
                rcases hmem with hmem | ⟨hid, ha, hi⟩ | hmem
                · simp at hmem
                · exact ⟨ha, hi⟩
                · simp at hmem
  · intro closed hooks res idle id a i hmem
    unfold PoolConnection.releaseTask at hmem
    by_cases hc : closed
    · simp [hc] at hmem
    · by_cases hh : res.healthy
      · cases har : hooks.after_release with
        | none =>
          simp [hc, hh, har] at hmem
        | some cb =>
          cases hcb : cb res { age := 0, idle_for := 0 } with
          | ok b =>
            cases b <;>
            · simp only [hc, hh, har, hcb, Bool.not_true, if_false, Bool.false_eq_true,
                ite_false] at hmem
              simp only [List.mem_cons, List.mem_singleton,
                Event.hookAfterRelease.injEq] at hmem
              rcases hmem with hmem | hmem
              · simp at hmem
              · rcases hmem with ⟨hid, ha, hi⟩ | hmem
                · exact ⟨ha, hi⟩
                · simp at hmem
          | error err =>
            simp only [hc, hh, har, hcb, Bool.not_true, if_false, Bool.false_eq_true,
              ite_false] at hmem
            simp only [List.mem_cons, List.mem_singleton,
              Event.hookAfterRelease.injEq] at hmem
            rcases hmem with hmem | hmem
            · simp at hmem
            · rcases hmem with ⟨hid, ha, hi⟩ | hmem
              · exact ⟨ha, hi⟩
              · simp at hmem
      · simp [hc, hh] at hmem

/-- Witness for C8 at concrete inputs: the `before_acquire` invocation for
the entry idle for 5 units carries `(age, idle_for) = (0, 5)`; an
`after_create` invocation carries `(0, 0)`; an `after_release` invocation
carries `(0, 0)`. -/
theorem hook_metadata_values_witness :
    ((0 : Nat) = 0 ∧ ∃ e ∈ stateHooksW.idle, e.res.id = 4 ∧ 5 = e.elapsed)
    ∧ ((0 : Nat) = 0 ∧ (0 : Nat) = 0)
    ∧ ((0 : Nat) = 0 ∧ (0 : Nat) = 0) := by
  refine ⟨?_, ?_, ?_⟩
  · apply hook_metadata_values.1 stateHooksW (.ok resW) 4 0 5
    have hpop : pop_idle_healthy stateHooksW.opts stateHooksW.idle
        = (some entIdle5W, [], [.popEntry 4, .healthCheck 4]) := by decide
    have hloop := acquireIdleLoop_pop_some_hookTrue stateHooksW.opts stateHooksW.hooks
      stateHooksW.idle [] [.popEntry 4, .healthCheck 4] entIdle5W _ hpop rfl rfl
    simp only [Pool.acquire, hloop]
    decide
  · apply hook_metadata_values.2.1 stateCreateW (.ok resW) 1 0 0
    have hloop := acquireIdleLoop_pop_none stateCreateW.opts stateCreateW.hooks
      stateCreateW.idle [] [] rfl
    simp only [Pool.acquire, hloop]
    decide
  · apply hook_metadata_values.2.2 false hooksOkW resW [] 1 0 0
    decide
